import Mathlib

/-!
Verification of the `generate-types` script of `vhtml-types`
(`src/generate-types.ts`), a one-shot source-to-source transformation that
extracts JSX attribute types from the React type declarations and rewrites
them for vhtml.

The script is embedded shallowly:

* Strings are `String`/`List Char`.  The two JavaScript regex operations the
  script uses are modelled exactly for the patterns that occur in it:
  - `/EventHandler/i.test(s)` — an ASCII-case-insensitive substring test.
    JavaScript canonicalises both the (ASCII) pattern and the input; a
    non-ASCII character never matches an ASCII pattern character, so the test
    equals "lowercased pattern is an infix of the ASCII-lowercased input".
  - `s.replace(/\bW\b/g, r)` where `W` is a constant consisting solely of
    word characters (`CSSProperties`, `Booleanish`).  With `\w = [A-Za-z0-9_]`
    the pattern `\bW\b` matches exactly the maximal word-character runs of `s`
    that are equal to `W`, and the `g` flag replaces all of them.  The
    function `replaceWordAll` below therefore splits the string into maximal
    runs of characters of equal word-ness (`runs`), replaces every run equal
    to `W` by `r`, and concatenates.
* The ts-morph syntax tree is a data type: interfaces carry their name, type
  parameters, extends clauses and property signatures; property types are the
  type text (`getStructure().type`), which ts-morph reports as `undefined`
  (here `none`) when the signature has no type annotation.
* `assert` failures abort the run; fallible functions return
  `Except String α` and the assertion message is the error value.
* A JavaScript `Set` is a list without duplicates, preserving insertion
  order (`insertName`).
* `forEach` iterates over the array that `getProperties()` / `getExtends()`
  returned before the loop started (a snapshot); nodes added during the loop
  are appended at the end of the member list and are not visited.
-/

/-- JavaScript word characters `[A-Za-z0-9_]`, by code point. -/
def isWordChar (c : Char) : Bool :=
  (97 ≤ c.toNat && c.toNat ≤ 122) || (65 ≤ c.toNat && c.toNat ≤ 90) ||
    (48 ≤ c.toNat && c.toNat ≤ 57) || (c.toNat == 95)

/-- The 26 ASCII upper/lower case pairs, as a lookup table. -/
def lowerPairs : List (Char × Char) :=
  "ABCDEFGHIJKLMNOPQRSTUVWXYZ".toList.zip "abcdefghijklmnopqrstuvwxyz".toList

/-- ASCII lower-casing of one character; other characters are unchanged.
This is the canonicalisation used by a non-unicode `/…/i` JavaScript regex on
an ASCII pattern, and by `String.prototype.toLowerCase` on ASCII input (all
property names the script lower-cases are ASCII). -/
def asciiLower (c : Char) : Char :=
  match lowerPairs.find? (fun p => p.1 == c) with
  | some p => p.2
  | none => c

/-- The pattern `EventHandler`, canonicalised to lower case. -/
def eventHandlerLower : List Char := "eventhandler".toList

/-- The apostrophe character (code point 39). -/
def quoteChar : Char := Char.ofNat 39

/-- The word `CSSProperties` (regex `\bCSSProperties\b`). -/
def cssChars : List Char := "CSSProperties".toList

/-- The replacement text for `CSSProperties`. -/
def strReplChars : List Char := "string".toList

/-- The word `Booleanish` (regex `\bBooleanish\b`). -/
def booChars : List Char := "Booleanish".toList

/-- The replacement text for `Booleanish`: the inline union
`(boolean | 'true' | 'false')` (apostrophes spelled via `quoteChar`). -/
def booReplChars : List Char :=
  "(boolean | ".toList ++ [quoteChar] ++ "true".toList ++ [quoteChar] ++ " | ".toList
    ++ [quoteChar] ++ "false".toList ++ [quoteChar] ++ ")".toList

/-- Prepend a character to a run decomposition: extend the first run when the
word-ness matches, else start a new run. -/
def consRun (c : Char) : List (List Char) → List (List Char)
  | [] => [[c]]
  | [] :: rs => [c] :: rs
  | (d :: r) :: rs =>
      if isWordChar c == isWordChar d then (c :: d :: r) :: rs
      else [c] :: (d :: r) :: rs

/-- Decompose a string into its maximal runs of characters of equal
word-ness.  `\bW\b` (for a word-character constant `W`) matches exactly the
runs equal to `W`. -/
def runs : List Char → List (List Char)
  | [] => []
  | c :: cs => consRun c (runs cs)

/-- Replace one run: a run equal to `w` becomes `r`. -/
def replRun (w r t : List Char) : List Char := if t = w then r else t

/-- `s.replace(/\bW\b/g, r)` for a word-character constant `W`: replace every
maximal word run equal to `w` by `r`. -/
def replaceWordAll (w r x : List Char) : List Char :=
  ((runs x).map (replRun w r)).flatten

/-- `normalizeAttributeType` of `generate-types.ts`:
event-handler types collapse to `string`, `ReactNode` becomes `any`, and
otherwise every whole-word `CSSProperties` becomes `string` and every
whole-word `Booleanish` becomes the inline boolean union. -/
def normalizeAttributeType (attrType : String) : String :=
  if eventHandlerLower <:+: attrType.toList.map asciiLower then "string"
  else if attrType = "ReactNode" then "any"
  else String.mk (replaceWordAll booChars booReplChars
    (replaceWordAll cssChars strReplChars attrType.toList))

/-- `String.prototype.toLowerCase` restricted to ASCII input. -/
def lowerString (s : String) : String := String.mk (s.toList.map asciiLower)

/-- A property signature structure: name, type text (`none` when the
signature has no type annotation), and the optional marker. -/
structure PropStruct where
  name : String
  type : Option String
  hasQuestionToken : Bool
deriving Repr, DecidableEq

/-- An extends-clause: the callee expression text (without type arguments)
and the type-argument texts. -/
structure ExtendsExpr where
  expr : String
  typeArgs : List String
deriving Repr, DecidableEq

/-- The full source text of an extends clause (`getText()`). -/
def ExtendsExpr.text (e : ExtendsExpr) : String :=
  if e.typeArgs.isEmpty then e.expr
  else e.expr ++ "<" ++ String.intercalate ", " e.typeArgs ++ ">"

/-- An interface declaration. -/
structure InterfaceDecl where
  name : String
  typeParameters : List String
  extendsExprs : List ExtendsExpr
  properties : List PropStruct
deriving Repr, DecidableEq

/-- A type alias declaration: its name and its full source text (the emitter
appends aliases verbatim). -/
structure TypeAliasDecl where
  name : String
  text : String
deriving Repr, DecidableEq

/-- The fixed list of React-only property names that are deleted. -/
def droppedPropNames : List String :=
  ["defaultChecked", "defaultValue", "suppressContentEditableWarning",
   "suppressHydrationWarning"]

/-- The allow-list of parent interfaces accepted in an extends clause. -/
def allowedParents : List String :=
  ["AriaAttributes", "DOMAttributes", "HTMLAttributes", "MediaHTMLAttributes",
   "SVGAttributes"]

/-- The extends-clause loop of `updateAttributesInterface`: drop
`ClassAttributes`, assert membership in `allowedParents`, and re-add the bare
name without type arguments.  (The source removes each clause and appends the
bare name, so the surviving clauses keep their document order.) -/
def updateAllExtends (interfaceName : String) :
    List ExtendsExpr → Except String (List ExtendsExpr)
  | [] => .ok []
  | e :: es =>
      if e.expr = "ClassAttributes" then updateAllExtends interfaceName es
      else if e.expr ∈ allowedParents then
        match updateAllExtends interfaceName es with
        | .error msg => .error msg
        | .ok rest => .ok (ExtendsExpr.mk e.expr [] :: rest)
      else
        .error ("Interface " ++ interfaceName ++ " has unexpected parent interface: "
          ++ e.expr)

/-- The body of the property loop of `updateAttributesInterface` for a single
property: `none` when the property is removed, otherwise the updated property
together with the optional `class`/`for` duplicate built from the updated
structure. -/
def updateOneProp (p : PropStruct) : Except String (Option (PropStruct × Option PropStruct)) :=
  if p.name ∈ droppedPropNames then .ok none
  else
    match p.type with
    | none => .error "Unexpected structure.type type: undefined"
    | some t =>
        let t2 := if p.name ≠ "dangerouslySetInnerHTML" then normalizeAttributeType t else t
        let n2 :=
          if p.name ≠ "className" ∧ p.name ≠ "dangerouslySetInnerHTML" ∧ p.name ≠ "htmlFor"
          then lowerString p.name else p.name
        let dup : Option PropStruct :=
          if p.name = "className" then some ⟨"class", some t2, p.hasQuestionToken⟩
          else if p.name = "htmlFor" then some ⟨"for", some t2, p.hasQuestionToken⟩
          else none
        .ok (some (⟨n2, some t2, p.hasQuestionToken⟩, dup))

/-- The property loop of `updateAttributesInterface` over the snapshot of the
original properties: each original is updated in place or removed, and the
`class`/`for` duplicates are appended (in traversal order) after all
originals. -/
def processProps : List PropStruct → Except String (List PropStruct × List PropStruct)
  | [] => .ok ([], [])
  | p :: ps =>
      match updateOneProp p with
      | .error msg => .error msg
      | .ok none => processProps ps
      | .ok (some (u, d)) =>
          match processProps ps with
          | .error msg => .error msg
          | .ok (main, dups) => .ok (u :: main, d.toList ++ dups)

/-- `updateAttributesInterface` of `generate-types.ts`: delete the type
parameters, rewrite the extends clauses, and run the property loop. -/
def updateAttributesInterface (i : InterfaceDecl) : Except String InterfaceDecl :=
  match updateAllExtends i.name i.extendsExprs with
  | .error msg => .error msg
  | .ok newExtends =>
      match processProps i.properties with
      | .error msg => .error msg
      | .ok (main, dups) =>
          .ok { name := i.name, typeParameters := [], extendsExprs := newExtends,
                properties := main ++ dups }

/-- A type expression node, as far as the extractor inspects it: identifiers,
qualified names (`Left.right`), and type references with arguments
(`Callee<Args>`). -/
inductive TypeNode where
  | ident (name : String)
  | qualifiedName (left : TypeNode) (right : String)
  | typeRef (callee : TypeNode) (args : List TypeNode)
deriving Repr

mutual

/-- Source text of a type node (`getText()`). -/
def TypeNode.text : TypeNode → String
  | .ident n => n
  | .qualifiedName l r => TypeNode.text l ++ "." ++ r
  | .typeRef c args =>
      TypeNode.text c ++ "<" ++ String.intercalate ", " (typeNodeTexts args) ++ ">"

/-- Source texts of a list of type nodes. -/
def typeNodeTexts : List TypeNode → List String
  | [] => []
  | n :: ns => TypeNode.text n :: typeNodeTexts ns

end

mutual

/-- The `forEachDescendant` search of `extractIntrinsicElementsInterface`:
the first (document pre-order) qualified name whose left side prints as
`React` and whose right identifier is not `DetailedHTMLProps`; the result is
that right identifier's text.  (Children of a qualified name are its left
side, then its right identifier; children of a type reference are its callee
name, then its type arguments.) -/
def findTarget : TypeNode → Option String
  | .ident _ => none
  | .qualifiedName l r =>
      if TypeNode.text l = "React" ∧ r ≠ "DetailedHTMLProps" then some r
      else findTarget l
  | .typeRef c args =>
      match findTarget c with
      | some x => some x
      | none => findTargetList args

/-- First match of `findTarget` over a list of nodes, in order. -/
def findTargetList : List TypeNode → Option String
  | [] => none
  | n :: ns =>
      match findTarget n with
      | some x => some x
      | none => findTargetList ns

end

/-- A property signature of the `JSX.IntrinsicElements` interface: its name
and its type node. -/
structure IntrinsicProp where
  name : String
  typeNode : TypeNode
deriving Repr

/-- `Set.prototype.add`: append when absent, preserving insertion order. -/
def insertName (names : List String) (n : String) : List String :=
  if n ∈ names then names else names ++ [n]

/-- Worker for `extractIntrinsicElementsInterface`, accumulating the
identifier set across the property loop. -/
def extractIEAux (acc : List String) :
    List IntrinsicProp → Except String (List (String × String) × List String)
  | [] => .ok ([], acc)
  | p :: ps =>
      match findTarget p.typeNode with
      | none => .error "Cannot find target identifier"
      | some t =>
          match extractIEAux (insertName acc t) ps with
          | .error msg => .error msg
          | .ok (props, names) => .ok ((p.name, t) :: props, names)

/-- `extractIntrinsicElementsInterface` of `generate-types.ts`: for each
property of `JSX.IntrinsicElements`, replace its type by the identifier that
`findTarget` yields (fatal when there is none) and collect the set of those
identifiers. -/
def extractIntrinsicElementsInterface (props : List IntrinsicProp) :
    Except String (List (String × String) × List String) :=
  extractIEAux [] props

/-- A statement of a declaration file, as far as the collector inspects it. -/
inductive Statement where
  | interfaceDecl (i : InterfaceDecl)
  | typeAliasDecl (t : TypeAliasDecl)
  | moduleDecl (name : String) (body : List Statement)
  | otherStatement (text : String)
deriving Repr

/-- An interface or type alias declaration, as returned by the collector. -/
inductive TopDecl where
  | interfaceDecl (i : InterfaceDecl)
  | typeAliasDecl (t : TypeAliasDecl)
deriving Repr, DecidableEq

/-- Name of a collected declaration (`getName()`). -/
def TopDecl.name : TopDecl → String
  | .interfaceDecl i => i.name
  | .typeAliasDecl t => t.name

mutual

/-- Declarations contributed by one statement: interfaces and type aliases
are collected, namespace bodies are walked recursively, anything else is
skipped. -/
def statementInterfacesAndTypeAliases : Statement → List TopDecl
  | .interfaceDecl i => [.interfaceDecl i]
  | .typeAliasDecl t => [.typeAliasDecl t]
  | .moduleDecl _ body => getAllInterfacesAndTypeAliases body
  | .otherStatement _ => []

/-- `getAllInterfacesAndTypeAliases` of `generate-types.ts`: all interfaces
and type aliases of a statement list, in document order, flattened across
nested namespaces. -/
def getAllInterfacesAndTypeAliases : List Statement → List TopDecl
  | [] => []
  | s :: rest => statementInterfacesAndTypeAliases s ++ getAllInterfacesAndTypeAliases rest

end

/-- The interfaces and type aliases that are always extracted. -/
def fixedAllowList : List String :=
  ["AriaAttributes", "DOMAttributes", "HTMLAttributeReferrerPolicy",
   "HTMLAttributes", "MediaHTMLAttributes", "SVGAttributes"]

/-- Add the fixed allow-list to the extracted type-name set. -/
def augmentNames (names : List String) : List String :=
  fixedAllowList.foldl insertName names

/-- The second pass of `generateJsxTypesForVhtml`: keep, in document order,
every collected declaration whose name is in the type-name set.  There is no
check on how many declarations a name matches. -/
def collectDecls (names : List String) (stmts : List Statement) : List TopDecl :=
  (getAllInterfacesAndTypeAliases stmts).filter (fun d => names.contains d.name)

/-- Normalize the collected declarations: interfaces go through
`updateAttributesInterface`, type aliases pass through unchanged. -/
def normalizeCollected : List TopDecl → Except String (List TopDecl)
  | [] => .ok []
  | .interfaceDecl i :: rest =>
      match updateAttributesInterface i with
      | .error msg => .error msg
      | .ok i2 =>
          match normalizeCollected rest with
          | .error msg => .error msg
          | .ok ds => .ok (.interfaceDecl i2 :: ds)
  | .typeAliasDecl t :: rest =>
      match normalizeCollected rest with
      | .error msg => .error msg
      | .ok ds => .ok (.typeAliasDecl t :: ds)

/-- A declaration added to the output `JSX` namespace. -/
inductive Emitted where
  | aliasDecl (name : String) (type : String)
  | interfaceDecl (i : InterfaceDecl)
  | verbatimAlias (t : TypeAliasDecl)
deriving Repr, DecidableEq

/-- The emitter step of `generateJsxTypesForVhtml` for one extracted
declaration: an interface with no remaining properties becomes a type alias
whose right side joins the parenthesised extends texts with `&`; a non-empty
interface is appended as an interface; a type alias is appended verbatim. -/
def emitOne : TopDecl → Emitted
  | .interfaceDecl i =>
      if i.properties.length = 0 then
        .aliasDecl i.name
          (String.intercalate "&" (i.extendsExprs.map (fun e => "(" ++ e.text ++ ")")))
      else .interfaceDecl i
  | .typeAliasDecl t => .verbatimAlias t

/-- The contents `generateJsxTypesForVhtml` adds to the `JSX` namespace of
the template: the rewritten `IntrinsicElements` properties and the emitted
declarations. -/
structure Output where
  intrinsicProps : List (String × String)
  emitted : List Emitted
deriving Repr, DecidableEq

/-- `generateJsxTypesForVhtml` of `generate-types.ts`, as a function of the
`IntrinsicElements` properties of the React declaration file and that file's
statement list: extract the intrinsic table and the type-name set, augment
the set with the fixed allow-list, collect and normalize the matching
declarations, and emit. -/
def generateJsxTypesForVhtml (ieProps : List IntrinsicProp)
    (reactStmts : List Statement) : Except String Output :=
  match extractIntrinsicElementsInterface ieProps with
  | .error msg => .error msg
  | .ok (newProps, names) =>
      match normalizeCollected (collectDecls (augmentNames names) reactStmts) with
      | .error msg => .error msg
      | .ok ds => .ok ⟨newProps, ds.map emitOne⟩

/-- Word-ness of the first character of a run (`false` for the empty run). -/
def headW : List Char → Bool
  | [] => false
  | c :: _ => isWordChar c

/-- A well-formed run: nonempty and homogeneous in word-ness. -/
def HRun (t : List Char) : Prop := t ≠ [] ∧ ∀ c ∈ t, isWordChar c = headW t

/-- Every character is a non-word character. -/
def AllNW (t : List Char) : Prop := ∀ c ∈ t, isWordChar c = false

/-- The `\b` boundary test against an optional neighbouring character:
satisfied at the edge of the string or next to a non-word character. -/
def nonWordB : Option Char → Prop
  | none => True
  | some c => isWordChar c = false

/-- `\bw\b` matches somewhere in `x`: `w` occurs with both neighbours (when
present) non-word characters. -/
def WBOccurs (w x : List Char) : Prop :=
  ∃ u v, x = u ++ w ++ v ∧ nonWordB u.getLast? ∧ nonWordB v.head?

/-- Demo `IntrinsicElements` property list:
`a: React.DetailedHTMLProps<React.AnchorHTMLAttributes<HTMLAnchorElement>, HTMLAnchorElement>`. -/
def demoIntrinsicProps : List IntrinsicProp :=
  [⟨"a", .typeRef (.qualifiedName (.ident "React") "DetailedHTMLProps")
      [.typeRef (.qualifiedName (.ident "React") "AnchorHTMLAttributes")
        [.ident "HTMLAnchorElement"],
       .ident "HTMLAnchorElement"]⟩]

/-- Demo React statement list with two declarations named
`AnchorHTMLAttributes` (one nested in a namespace) and none of the names of
the fixed allow-list. -/
def demoReactStmts : List Statement :=
  [.interfaceDecl ⟨"AnchorHTMLAttributes", [], [], [⟨"href", some "string", true⟩]⟩,
   .moduleDecl "X" [.interfaceDecl ⟨"AnchorHTMLAttributes", [], [], []⟩]]

/-- The output the pipeline produces on the demo inputs. -/
def demoOutput : Output :=
  ⟨[("a", "AnchorHTMLAttributes")],
   [.interfaceDecl ⟨"AnchorHTMLAttributes", [], [], [⟨"href", some "string", true⟩]⟩,
    .aliasDecl "AnchorHTMLAttributes" ""]⟩

/-- Demo interface with a `className` and an `htmlFor` property. -/
def demoClassNameIface : InterfaceDecl :=
  ⟨"HTMLAttributes", [], [],
   [⟨"className", some "string", true⟩, ⟨"htmlFor", some "string", false⟩]⟩

/-- The normalized form of `demoClassNameIface`. -/
def demoClassNameResult : InterfaceDecl :=
  ⟨"HTMLAttributes", [], [],
   [⟨"className", some "string", true⟩, ⟨"htmlFor", some "string", false⟩,
    ⟨"class", some "string", true⟩, ⟨"for", some "string", false⟩]⟩

/-- Demo interface with an `onClick?: MouseEventHandler<T>` property. -/
def demoOnClickIface : InterfaceDecl :=
  ⟨"DOMAttributes", [], [], [⟨"onClick", some "MouseEventHandler<T>", true⟩]⟩

/-- Demo `IntrinsicElements` property list whose type node has no qualified
name below the `React` namespace. -/
def demoFailProps : List IntrinsicProp := [⟨"div", .ident "divAttrs"⟩]

/-! ## Helper lemmas about the pipeline functions -/

theorem mem_insertName_self (names : List String) (n : String) : n ∈ insertName names n := by
  unfold insertName
  by_cases h : n ∈ names
  · rw [if_pos h]; exact h
  · rw [if_neg h]; exact List.mem_append_right names (List.mem_singleton.mpr rfl)

theorem mem_insertName_of_mem (names : List String) (n m : String) (h : m ∈ names) :
    m ∈ insertName names n := by
  unfold insertName
  by_cases hn : n ∈ names
  · rw [if_pos hn]; exact h
  · rw [if_neg hn]; exact List.mem_append_left _ h

theorem updateAttributesInterface_ok (i i2 : InterfaceDecl)
    (h : updateAttributesInterface i = .ok i2) :
    ∃ newExt main dups, updateAllExtends i.name i.extendsExprs = .ok newExt ∧
      processProps i.properties = .ok (main, dups) ∧
      i2 = ⟨i.name, [], newExt, main ++ dups⟩ := by
  unfold updateAttributesInterface at h
  cases he : updateAllExtends i.name i.extendsExprs with
  | error m => rw [he] at h; exact absurd h (by simp)
  | ok newExt =>
      rw [he] at h
      cases hp : processProps i.properties with
      | error m => rw [hp] at h; exact absurd h (by simp)
      | ok pr =>
          rw [hp] at h
          refine ⟨newExt, pr.1, pr.2, rfl, rfl, ?_⟩
          simp only [Except.ok.injEq] at h
          exact h.symm

theorem updateOneProp_none_name (p : PropStruct) (h : updateOneProp p = .ok none) :
    p.name ∈ droppedPropNames := by
  by_cases hm : p.name ∈ droppedPropNames
  · exact hm
  · exfalso
    rw [updateOneProp, if_neg hm] at h
    cases ht : p.type with
    | none => rw [ht] at h; exact absurd h (by simp)
    | some t => rw [ht] at h; simp at h

theorem dropped_not_special (n : String) (h : n ∈ droppedPropNames) :
    ((n == "className") || (n == "htmlFor")) = false := by
  simp only [droppedPropNames, List.mem_cons, List.mem_singleton] at h
  rcases h with rfl | rfl | rfl | rfl | h
  · decide
  · decide
  · decide
  · decide
  · cases h

theorem updateOneProp_some_spec (p : PropStruct) (u : PropStruct) (d : Option PropStruct)
    (h : updateOneProp p = .ok (some (u, d))) :
    ∃ t2, (p.name = "className" → d = some ⟨"class", some t2, p.hasQuestionToken⟩) ∧
      (p.name = "htmlFor" → d = some ⟨"for", some t2, p.hasQuestionToken⟩) ∧
      (p.name ≠ "className" → p.name ≠ "htmlFor" → d = none) := by
  by_cases hm : p.name ∈ droppedPropNames
  · rw [updateOneProp, if_pos hm] at h; exact absurd h (by simp)
  · rw [updateOneProp, if_neg hm] at h
    cases ht : p.type with
    | none => rw [ht] at h; exact absurd h (by simp)
    | some t =>
        rw [ht] at h
        simp only [Except.ok.injEq, Option.some.injEq, Prod.mk.injEq] at h
        refine ⟨if p.name ≠ "dangerouslySetInnerHTML" then normalizeAttributeType t else t,
          ?_, ?_, ?_⟩
        · intro hc
          rw [← h.2, hc]
          simp
        · intro hf
          rw [← h.2, hf]
          simp
        · intro hc hf
          rw [← h.2, if_neg hc, if_neg hf]

/-! ## Claim theorems (C3, C6, C7, C8) -/

/-- C3: every extracted interface with zero property signatures after
normalization is emitted as a type alias (not an interface) of the same name
whose type expression joins the rewritten extends-clause texts, each wrapped
in parentheses, with `&`; consequently the pipeline never emits an empty
interface as an interface. -/
theorem c3_empty_interface_alias :
    (∀ i : InterfaceDecl, i.properties = [] →
      emitOne (.interfaceDecl i) = .aliasDecl i.name
        (String.intercalate "&" (i.extendsExprs.map (fun e => "(" ++ e.text ++ ")")))) ∧
    (∀ ieProps stmts out, generateJsxTypesForVhtml ieProps stmts = .ok out →
      ∀ i : InterfaceDecl, Emitted.interfaceDecl i ∈ out.emitted → i.properties ≠ []) := by
  constructor
  · intro i h
    simp [emitOne, h]
  · intro ieProps stmts out hgen i hmem
    unfold generateJsxTypesForVhtml at hgen
    cases hex : extractIntrinsicElementsInterface ieProps with
    | error m => rw [hex] at hgen; exact absurd hgen (by simp)
    | ok pr =>
        rw [hex] at hgen
        obtain ⟨newProps, names⟩ := pr
        dsimp only at hgen
        cases hn : normalizeCollected (collectDecls (augmentNames names) stmts) with
        | error m => rw [hn] at hgen; exact absurd hgen (by simp)
        | ok ds =>
            rw [hn] at hgen
            simp only [Except.ok.injEq] at hgen
            rw [← hgen] at hmem
            simp only [List.mem_map] at hmem
            obtain ⟨d, _, hd⟩ := hmem
            cases d with
            | interfaceDecl j =>
                by_cases hz : j.properties.length = 0
                · rw [emitOne, if_pos hz] at hd; exact absurd hd (by simp)
                · rw [emitOne, if_neg hz] at hd
                  simp only [Emitted.interfaceDecl.injEq] at hd
                  rw [← hd]
                  intro hnil
                  exact hz (by rw [hnil]; rfl)
            | typeAliasDecl t => exact absurd hd (by simp [emitOne])

/-- C3 witness: an empty interface extending `DOMAttributes` and
`HTMLAttributes` is emitted as the alias `(DOMAttributes)&(HTMLAttributes)`. -/
theorem c3_empty_interface_alias_witness :
    emitOne (.interfaceDecl ⟨"AriaAttributes", [],
        [⟨"DOMAttributes", []⟩, ⟨"HTMLAttributes", []⟩], []⟩) =
      .aliasDecl "AriaAttributes" "(DOMAttributes)&(HTMLAttributes)" := by
  have h := c3_empty_interface_alias.1
    ⟨"AriaAttributes", [], [⟨"DOMAttributes", []⟩, ⟨"HTMLAttributes", []⟩], []⟩ rfl
  exact h

/-- C6: every property type whose text contains `EventHandler`
case-insensitively normalizes to exactly `string`, and the scenario
`onClick?: MouseEventHandler<T>` normalizes to `onclick?: string` with the
optional flag preserved. -/
theorem c6_event_handler_string :
    (∀ s : String, eventHandlerLower <:+: s.toList.map asciiLower →
      normalizeAttributeType s = "string") ∧
    updateAttributesInterface demoOnClickIface =
      .ok ⟨"DOMAttributes", [], [], [⟨"onclick", some "string", true⟩]⟩ := by
  constructor
  · intro s h
    unfold normalizeAttributeType
    rw [if_pos h]
  · rfl

/-- C6 witness: `MouseEventHandler<T>` contains `EventHandler` and
normalizes to `string`. -/
theorem c6_event_handler_string_witness :
    normalizeAttributeType "MouseEventHandler<T>" = "string" :=
  c6_event_handler_string.1 "MouseEventHandler<T>" (by decide)

/-- C7: the pipeline is deterministic — running it twice on the same two
inputs yields identical outputs. -/
theorem c7_pipeline_deterministic :
    ∀ ieProps stmts,
      generateJsxTypesForVhtml ieProps stmts = generateJsxTypesForVhtml ieProps stmts :=
  fun _ _ => rfl

/-- C8: an extracted interface with zero properties and zero extends clauses
after normalization is still converted to a type alias, whose type expression
is the empty string; `emitOne` is total, so no error is raised and no
non-empty-extends guard exists. -/
theorem c8_empty_interface_empty_alias :
    ∀ i : InterfaceDecl, i.properties = [] → i.extendsExprs = [] →
      emitOne (.interfaceDecl i) = .aliasDecl i.name "" := by
  intro i h1 h2
  simp [emitOne, h1, h2]
  rfl

/-- C8 witness: a fully empty interface becomes an alias with empty type
text. -/
theorem c8_empty_interface_empty_alias_witness :
    emitOne (.interfaceDecl ⟨"AriaAttributes", [], [], []⟩) =
      .aliasDecl "AriaAttributes" "" :=
  c8_empty_interface_empty_alias ⟨"AriaAttributes", [], [], []⟩ rfl rfl

/-! ## Claim theorems (C5, C1, C4) -/

/-- C5: in the extends loop, `ClassAttributes` clauses are removed entirely;
a clause whose callee is outside the allow-list makes the run fail; and
otherwise each clause is replaced by the bare name with the type arguments
discarded. -/
theorem c5_extends_normalization :
    (∀ iname es, (∀ e ∈ es, e.expr = "ClassAttributes" ∨ e.expr ∈ allowedParents) →
      updateAllExtends iname es =
        .ok ((es.filter (fun e => !(e.expr == "ClassAttributes"))).map
          (fun e => ExtendsExpr.mk e.expr []))) ∧
    (∀ iname es, (∃ e ∈ es, e.expr ≠ "ClassAttributes" ∧ e.expr ∉ allowedParents) →
      ∃ msg, updateAllExtends iname es = .error msg) := by
  constructor
  · intro iname es
    induction es with
    | nil => intro _; rfl
    | cons e es ih =>
        intro h
        by_cases hc : e.expr = "ClassAttributes"
        · simp only [updateAllExtends]
          rw [if_pos hc, ih (fun f hf => h f (List.mem_cons_of_mem e hf))]
          simp [List.filter_cons, hc]
        · have hm : e.expr ∈ allowedParents := by
            rcases h e (List.mem_cons_self e es) with h1 | h2
            · exact absurd h1 hc
            · exact h2
          simp only [updateAllExtends]
          rw [if_neg hc, if_pos hm, ih (fun f hf => h f (List.mem_cons_of_mem e hf))]
          simp [List.filter_cons, hc]
  · intro iname es
    induction es with
    | nil => intro h; obtain ⟨f, hf, _⟩ := h; cases hf
    | cons e es ih =>
        intro h
        obtain ⟨f, hf, hne, hna⟩ := h
        rcases List.mem_cons.mp hf with rfl | hf2
        · simp only [updateAllExtends]
          rw [if_neg hne, if_neg hna]
          exact ⟨_, rfl⟩
        · by_cases hc : e.expr = "ClassAttributes"
          · obtain ⟨msg, hmsg⟩ := ih ⟨f, hf2, hne, hna⟩
            refine ⟨msg, ?_⟩
            simp only [updateAllExtends]
            rw [if_pos hc, hmsg]
          · by_cases hm : e.expr ∈ allowedParents
            · obtain ⟨msg, hmsg⟩ := ih ⟨f, hf2, hne, hna⟩
              refine ⟨msg, ?_⟩
              simp only [updateAllExtends]
              rw [if_neg hc, if_pos hm, hmsg]
            · refine ⟨"Interface " ++ iname ++ " has unexpected parent interface: "
                ++ e.expr, ?_⟩
              simp only [updateAllExtends]
              rw [if_neg hc, if_neg hm]

/-- C5 witness: `ClassAttributes<T>` is dropped and `DOMAttributes<T>`
becomes the bare `DOMAttributes`. -/
theorem c5_extends_normalization_witness :
    updateAllExtends "HTMLAttributes"
        [⟨"ClassAttributes", ["T"]⟩, ⟨"DOMAttributes", ["T"]⟩] =
      .ok [ExtendsExpr.mk "DOMAttributes" []] :=
  c5_extends_normalization.1 "HTMLAttributes"
    [⟨"ClassAttributes", ["T"]⟩, ⟨"DOMAttributes", ["T"]⟩] (by decide)

/-- C1 (amended): the collector applies no resolution-count check — for any
name in the type-name set, the collected list keeps exactly as many
declarations of that name as exist anywhere in the (flattened) statement
tree: zero matches are silently skipped and multiple matches are all kept. -/
theorem c1_collector_resolution_count :
    ∀ names stmts n, n ∈ names →
      (collectDecls names stmts).countP (fun d => d.name == n) =
        (getAllInterfacesAndTypeAliases stmts).countP (fun d => d.name == n) := by
  intro names stmts n hn
  unfold collectDecls
  rw [List.countP_filter]
  apply List.countP_congr
  intro d _
  constructor
  · intro h
    rw [Bool.and_eq_true] at h
    exact h.1
  · intro h
    have hdn : d.name = n := by simpa using h
    rw [Bool.and_eq_true]
    refine ⟨h, ?_⟩
    rw [hdn]
    simpa using hn

/-- C1 witness: on the demo statements, `AnchorHTMLAttributes` is in the set
and is collected exactly as often as it is declared, namely twice. -/
theorem c1_collector_resolution_count_witness :
    (collectDecls ["AnchorHTMLAttributes"] demoReactStmts).countP
        (fun d => d.name == "AnchorHTMLAttributes") = 2 := by
  have h := c1_collector_resolution_count ["AnchorHTMLAttributes"] demoReactStmts
    "AnchorHTMLAttributes" (by decide)
  rw [h]
  rfl

/-- C1 counterexample to the claim as stated: on the demo input the name
`AnchorHTMLAttributes` of the type-name set resolves to two declarations
(both are emitted) and the allow-list name `SVGAttributes` resolves to zero
declarations (it is silently skipped), yet the run succeeds instead of
failing fatally. -/
theorem c1_no_fatal_error_counterexample :
    generateJsxTypesForVhtml demoIntrinsicProps demoReactStmts = .ok demoOutput ∧
    (getAllInterfacesAndTypeAliases demoReactStmts).countP
      (fun d => d.name == "AnchorHTMLAttributes") = 2 ∧
    (getAllInterfacesAndTypeAliases demoReactStmts).countP
      (fun d => d.name == "SVGAttributes") = 0 ∧
    "SVGAttributes" ∈ augmentNames ["AnchorHTMLAttributes"] ∧
    extractIntrinsicElementsInterface demoIntrinsicProps =
      .ok ([("a", "AnchorHTMLAttributes")], ["AnchorHTMLAttributes"]) := by
  refine ⟨rfl, rfl, rfl, by decide, rfl⟩

/-! ## Extractor lemmas and C4 -/

theorem extractIEAux_ok :
    ∀ props acc mapped names, extractIEAux acc props = .ok (mapped, names) →
      (∀ m ∈ acc, m ∈ names) ∧
      mapped = props.map (fun p => (p.name, (findTarget p.typeNode).getD "")) ∧
      (∀ p ∈ props, ∃ t, findTarget p.typeNode = some t ∧ t ∈ names) := by
  intro props
  induction props with
  | nil =>
      intro acc mapped names h
      simp only [extractIEAux, Except.ok.injEq, Prod.mk.injEq] at h
      refine ⟨fun m hm => ?_, by rw [← h.1]; rfl, fun p hp => absurd hp (by simp)⟩
      rw [← h.2]; exact hm
  | cons p ps ih =>
      intro acc mapped names h
      simp only [extractIEAux] at h
      cases hft : findTarget p.typeNode with
      | none => rw [hft] at h; exact absurd h (by simp)
      | some t =>
          rw [hft] at h
          dsimp only at h
          cases hrec : extractIEAux (insertName acc t) ps with
          | error m => rw [hrec] at h; exact absurd h (by simp)
          | ok pr =>
              rw [hrec] at h
              obtain ⟨props2, names2⟩ := pr
              dsimp only at h
              simp only [Except.ok.injEq, Prod.mk.injEq] at h
              obtain ⟨hmapped, hnames⟩ := h
              obtain ⟨hacc, hmap, hall⟩ := ih (insertName acc t) props2 names2 hrec
              subst hnames
              refine ⟨fun m hm => hacc m (mem_insertName_of_mem acc t m hm), ?_, ?_⟩
              · rw [← hmapped, hmap]
                simp [hft]
              · intro q hq
                rcases List.mem_cons.mp hq with rfl | hq2
                · exact ⟨t, hft, hacc t (mem_insertName_self acc t)⟩
                · exact hall q hq2

theorem extractIEAux_error :
    ∀ props acc, (∃ p ∈ props, findTarget p.typeNode = none) →
      extractIEAux acc props = .error "Cannot find target identifier" := by
  intro props
  induction props with
  | nil => intro acc h; obtain ⟨p, hp, _⟩ := h; cases hp
  | cons q ps ih =>
      intro acc h
      obtain ⟨p, hp, hnone⟩ := h
      rcases List.mem_cons.mp hp with rfl | hp2
      · simp only [extractIEAux]
        rw [hnone]
      · cases hft : findTarget q.typeNode with
        | none => simp only [extractIEAux]; rw [hft]
        | some t =>
            simp only [extractIEAux]
            rw [hft]
            dsimp only
            rw [ih (insertName acc t) ⟨p, hp2, hnone⟩]

/-- C4: for every property of `IntrinsicElements`, the extractor replaces
the property's type by the right identifier of the first qualified name
under the `React` host whose right side is not `DetailedHTMLProps`
(`findTarget`), records that identifier in the type-name set, and the run
fails fatally when some property has no such sub-expression. -/
theorem c4_intrinsic_extractor :
    (∀ props mapped names,
      extractIntrinsicElementsInterface props = .ok (mapped, names) →
      mapped = props.map (fun p => (p.name, (findTarget p.typeNode).getD "")) ∧
      ∀ p ∈ props, ∃ t, findTarget p.typeNode = some t ∧ t ∈ names) ∧
    (∀ props, (∃ p ∈ props, findTarget p.typeNode = none) →
      extractIntrinsicElementsInterface props = .error "Cannot find target identifier") := by
  constructor
  · intro props mapped names h
    have hh := extractIEAux_ok props [] mapped names h
    exact ⟨hh.2.1, hh.2.2⟩
  · intro props h
    exact extractIEAux_error props [] h

/-- C4 witness: a property whose type node has no `React`-qualified name
makes the extractor fail with the assertion message. -/
theorem c4_intrinsic_extractor_witness :
    extractIntrinsicElementsInterface demoFailProps =
      .error "Cannot find target identifier" :=
  c4_intrinsic_extractor.2 demoFailProps
    ⟨⟨"div", .ident "divAttrs"⟩, List.mem_singleton.mpr rfl, rfl⟩

/-! ## Property-loop lemmas and C2, C10 -/

theorem updateOneProp_className (t : String) (q : Bool) :
    updateOneProp ⟨"className", some t, q⟩ =
      .ok (some (⟨"className", some (normalizeAttributeType t), q⟩,
        some ⟨"class", some (normalizeAttributeType t), q⟩)) := rfl

theorem updateOneProp_htmlFor (t : String) (q : Bool) :
    updateOneProp ⟨"htmlFor", some t, q⟩ =
      .ok (some (⟨"htmlFor", some (normalizeAttributeType t), q⟩,
        some ⟨"for", some (normalizeAttributeType t), q⟩)) := rfl

theorem processProps_mem :
    ∀ ps main dups, processProps ps = .ok (main, dups) →
      ∀ p ∈ ps, ∀ u d, updateOneProp p = .ok (some (u, d)) →
        u ∈ main ∧ ∀ x, d = some x → x ∈ dups := by
  intro ps
  induction ps with
  | nil => intro main dups _ p hp; cases hp
  | cons q qs ih =>
      intro main dups h p hp u d hu
      simp only [processProps] at h
      rcases List.mem_cons.mp hp with rfl | hp2
      · rw [hu] at h
        dsimp only at h
        cases hrec : processProps qs with
        | error m => rw [hrec] at h; exact absurd h (by simp)
        | ok pr2 =>
            rw [hrec] at h
            obtain ⟨m2, dd2⟩ := pr2
            dsimp only at h
            simp only [Except.ok.injEq, Prod.mk.injEq] at h
            obtain ⟨hmain, hdups⟩ := h
            refine ⟨by rw [← hmain]; exact List.mem_cons_self u m2, fun x hx => ?_⟩
            rw [← hdups, hx]
            exact List.mem_append_left dd2 (List.mem_singleton.mpr rfl)
      · cases hq : updateOneProp q with
        | error m => rw [hq] at h; exact absurd h (by simp)
        | ok r =>
            rw [hq] at h
            cases r with
            | none => exact ih main dups h p hp2 u d hu
            | some ud =>
                obtain ⟨u1, d1⟩ := ud
                dsimp only at h
                cases hrec : processProps qs with
                | error m => rw [hrec] at h; exact absurd h (by simp)
                | ok pr2 =>
                    rw [hrec] at h
                    obtain ⟨m2, dd2⟩ := pr2
                    dsimp only at h
                    simp only [Except.ok.injEq, Prod.mk.injEq] at h
                    obtain ⟨hmain, hdups⟩ := h
                    obtain ⟨hu2, hd2⟩ := ih m2 dd2 hrec p hp2 u d hu
                    refine ⟨by rw [← hmain]; exact List.mem_cons_of_mem u1 hu2,
                      fun x hx => ?_⟩
                    rw [← hdups]
                    exact List.mem_append_right _ (hd2 x hx)

theorem processProps_dups :
    ∀ ps main dups, processProps ps = .ok (main, dups) →
      dups.length =
        (ps.filter (fun p => p.name == "className" || p.name == "htmlFor")).length ∧
      ∀ d ∈ dups, d.name = "class" ∨ d.name = "for" := by
  intro ps
  induction ps with
  | nil =>
      intro main dups h
      simp only [processProps, Except.ok.injEq, Prod.mk.injEq] at h
      rw [← h.2]
      exact ⟨rfl, fun d hd => absurd hd (by simp)⟩
  | cons q qs ih =>
      intro main dups h
      simp only [processProps] at h
      cases hq : updateOneProp q with
      | error m => rw [hq] at h; exact absurd h (by simp)
      | ok r =>
          rw [hq] at h
          cases r with
          | none =>
              have hnd := updateOneProp_none_name q hq
              have hns := dropped_not_special q.name hnd
              rw [List.filter_cons, if_neg (by rw [hns]; exact Bool.false_ne_true)]
              exact ih main dups h
          | some ud =>
              obtain ⟨u1, d1⟩ := ud
              dsimp only at h
              cases hrec : processProps qs with
              | error m => rw [hrec] at h; exact absurd h (by simp)
              | ok pr2 =>
                  rw [hrec] at h
                  obtain ⟨m2, dd2⟩ := pr2
                  dsimp only at h
                  simp only [Except.ok.injEq, Prod.mk.injEq] at h
                  obtain ⟨hmain, hdups⟩ := h
                  obtain ⟨hlen, hnames⟩ := ih m2 dd2 hrec
                  obtain ⟨t2, hcl, hfor, hno⟩ := updateOneProp_some_spec q u1 d1 hq
                  by_cases hc : q.name = "className"
                  · rw [hcl hc] at hdups
                    rw [List.filter_cons, if_pos (by simp [hc]), ← hdups]
                    constructor
                    · simp [hlen]
                    · intro d hd
                      rcases List.mem_cons.mp hd with rfl | hd2
                      · exact Or.inl rfl
                      · exact hnames d hd2
                  · by_cases hf : q.name = "htmlFor"
                    · rw [hfor hf] at hdups
                      rw [List.filter_cons, if_pos (by simp [hf]), ← hdups]
                      constructor
                      · simp [hlen]
                      · intro d hd
                        rcases List.mem_cons.mp hd with rfl | hd2
                        · exact Or.inr rfl
                        · exact hnames d hd2
                    · rw [hno hc hf] at hdups
                      rw [List.filter_cons, if_neg (by simp [hc, hf]), ← hdups]
                      exact ⟨by simpa using hlen, fun d hd => hnames d (by simpa using hd)⟩

/-- C10: the `class`/`for` duplicates are appended after all originals and
are not revisited by the property loop: the normalized property list is the
processed snapshot of the originals followed by exactly one duplicate (named
`class` or `for`) per original `className`/`htmlFor` property. -/
theorem c10_duplicates_appended :
    ∀ i i2, updateAttributesInterface i = .ok i2 →
      ∀ main dups, processProps i.properties = .ok (main, dups) →
        i2.properties = main ++ dups ∧
        dups.length = (i.properties.filter
          (fun p => p.name == "className" || p.name == "htmlFor")).length ∧
        ∀ d ∈ dups, d.name = "class" ∨ d.name = "for" := by
  intro i i2 h main dups hp
  obtain ⟨newExt, m2, d2, hext, hp2, hi2⟩ := updateAttributesInterface_ok i i2 h
  rw [hp] at hp2
  simp only [Except.ok.injEq, Prod.mk.injEq] at hp2
  obtain ⟨hm, hd⟩ := hp2
  obtain ⟨hlen, hnames⟩ := processProps_dups i.properties main dups hp
  refine ⟨?_, hlen, hnames⟩
  rw [hi2, ← hm, ← hd]

/-- C10 witness: for the demo interface the two duplicates sit at the end
and there is exactly one per `className`/`htmlFor` original. -/
theorem c10_duplicates_appended_witness :
    demoClassNameResult.properties =
      [⟨"className", some "string", true⟩, ⟨"htmlFor", some "string", false⟩] ++
        [⟨"class", some "string", true⟩, ⟨"for", some "string", false⟩] ∧
    ([⟨"class", some "string", true⟩, ⟨"for", some "string", false⟩] : List PropStruct).length =
      (demoClassNameIface.properties.filter
        (fun p => p.name == "className" || p.name == "htmlFor")).length := by
  have h := c10_duplicates_appended demoClassNameIface demoClassNameResult rfl
    [⟨"className", some "string", true⟩, ⟨"htmlFor", some "string", false⟩]
    [⟨"class", some "string", true⟩, ⟨"for", some "string", false⟩] rfl
  exact ⟨h.1, h.2.1⟩

/-- C2 (amended): for every `className`/`htmlFor` property, the normalized
interface contains both the duplicate (`class`/`for`) and the original
property under its original (not lower-cased) name, with identical
(normalized) types and optional flags. -/
theorem c2_class_for_duplicates :
    ∀ i i2, updateAttributesInterface i = .ok i2 →
      ∀ p ∈ i.properties, ∀ t, p.type = some t →
        (p.name = "className" →
          PropStruct.mk "className" (some (normalizeAttributeType t)) p.hasQuestionToken
              ∈ i2.properties ∧
          PropStruct.mk "class" (some (normalizeAttributeType t)) p.hasQuestionToken
              ∈ i2.properties) ∧
        (p.name = "htmlFor" →
          PropStruct.mk "htmlFor" (some (normalizeAttributeType t)) p.hasQuestionToken
              ∈ i2.properties ∧
          PropStruct.mk "for" (some (normalizeAttributeType t)) p.hasQuestionToken
              ∈ i2.properties) := by
  intro i i2 h p hp t ht
  obtain ⟨newExt, main, dups, hext, hprops, hi2⟩ := updateAttributesInterface_ok i i2 h
  have hi2p : i2.properties = main ++ dups := by rw [hi2]
  obtain ⟨name, ty, qq⟩ := p
  dsimp only at ht ⊢
  subst ht
  constructor
  · intro hc
    subst hc
    obtain ⟨h1, h2⟩ := processProps_mem i.properties main dups hprops _ hp _ _
      (updateOneProp_className t qq)
    rw [hi2p]
    exact ⟨List.mem_append_left dups h1,
      List.mem_append_right main (h2 _ rfl)⟩
  · intro hf
    subst hf
    obtain ⟨h1, h2⟩ := processProps_mem i.properties main dups hprops _ hp _ _
      (updateOneProp_htmlFor t qq)
    rw [hi2p]
    exact ⟨List.mem_append_left dups h1,
      List.mem_append_right main (h2 _ rfl)⟩

/-- C2 witness: the normalized demo interface contains `className` and
`class` with the same type. -/
theorem c2_class_for_duplicates_witness :
    PropStruct.mk "className" (some (normalizeAttributeType "string")) true
        ∈ demoClassNameResult.properties ∧
    PropStruct.mk "class" (some (normalizeAttributeType "string")) true
        ∈ demoClassNameResult.properties := by
  have h := c2_class_for_duplicates demoClassNameIface demoClassNameResult rfl
    ⟨"className", some "string", true⟩ (by decide) "string" rfl
  exact h.1 rfl

/-- C2 counterexample to the claim as stated: normalizing an interface with
`className` and `htmlFor` yields the property names
`className, htmlFor, class, for` — the lower-cased forms `classname` and
`htmlfor` do not appear anywhere in the result. -/
theorem c2_lowercase_counterexample :
    updateAttributesInterface demoClassNameIface = .ok demoClassNameResult ∧
    demoClassNameResult.properties.map PropStruct.name =
      ["className", "htmlFor", "class", "for"] ∧
    ((demoClassNameResult.properties.map PropStruct.name).contains "classname" = false) ∧
    ((demoClassNameResult.properties.map PropStruct.name).contains "htmlfor" = false) :=
  ⟨rfl, rfl, rfl, rfl⟩

/-! ## Runs machinery for the idempotence of `normalizeAttributeType` (C9) -/

theorem consRun_flatten (c : Char) (rs : List (List Char)) :
    (consRun c rs).flatten = c :: rs.flatten := by
  cases rs with
  | nil => rfl
  | cons t rs' =>
      cases t with
      | nil => rfl
      | cons d r =>
          by_cases h : isWordChar c = isWordChar d
          · simp [consRun, h]
          · simp [consRun, h]

theorem runs_flatten (l : List Char) : (runs l).flatten = l := by
  induction l with
  | nil => rfl
  | cons c cs ih => rw [runs, consRun_flatten, ih]

theorem headW_of_word (w : List Char) (hw : w ≠ [])
    (hword : ∀ c ∈ w, isWordChar c = true) : headW w = true := by
  cases w with
  | nil => exact absurd rfl hw
  | cons c cs => exact hword c (List.mem_cons_self c cs)

theorem hrun_allnw (t : List Char) (h : HRun t) (hw : headW t = false) : AllNW t :=
  fun c hc => by rw [h.2 c hc, hw]

theorem consRun_wf (c : Char) (rs : List (List Char))
    (h1 : ∀ t ∈ rs, HRun t)
    (h2 : List.Chain' (fun a b => headW a ≠ headW b) rs) :
    (∀ t ∈ consRun c rs, HRun t) ∧
      List.Chain' (fun a b => headW a ≠ headW b) (consRun c rs) := by
  cases rs with
  | nil =>
      refine ⟨fun t ht => ?_, ?_⟩
      · rw [List.mem_singleton.mp ht]
        exact ⟨by simp, fun x hx => by rw [List.mem_singleton.mp hx]; rfl⟩
      · exact List.chain'_singleton _
  | cons t rs' =>
      obtain ⟨hne, hhom⟩ := h1 t (List.mem_cons_self t rs')
      cases t with
      | nil => exact absurd rfl hne
      | cons d r =>
          rw [List.chain'_cons'] at h2
          obtain ⟨hhd, hch⟩ := h2
          by_cases hcd : isWordChar c = isWordChar d
          · have hcr : consRun c ((d :: r) :: rs') = (c :: d :: r) :: rs' := by
              simp [consRun, hcd]
            rw [hcr]
            have hhw : headW (c :: d :: r) = headW (d :: r) := by
              simp only [headW, hcd]
            refine ⟨fun t2 ht2 => ?_, ?_⟩
            · rcases List.mem_cons.mp ht2 with rfl | hmem
              · refine ⟨by simp, fun x hx => ?_⟩
                rcases List.mem_cons.mp hx with rfl | hx2
                · rw [hhw]; simp only [headW, hcd]
                · rw [hhw]; exact hhom x hx2
              · exact h1 t2 (List.mem_cons_of_mem _ hmem)
            · rw [List.chain'_cons']
              exact ⟨fun y hy => hhw ▸ hhd y hy, hch⟩
          · have hcr : consRun c ((d :: r) :: rs') = [c] :: (d :: r) :: rs' := by
              simp [consRun, hcd]
            rw [hcr]
            refine ⟨fun t2 ht2 => ?_, ?_⟩
            · rcases List.mem_cons.mp ht2 with rfl | hmem
              · exact ⟨by simp, fun x hx => by rw [List.mem_singleton.mp hx]; rfl⟩
              · exact h1 t2 hmem
            · rw [List.chain'_cons']
              refine ⟨fun y hy => ?_, ?_⟩
              · simp only [List.head?_cons, Option.mem_def, Option.some.injEq] at hy
                rw [← hy]
                simpa [headW] using hcd
              · rw [List.chain'_cons']
                exact ⟨hhd, hch⟩

theorem runs_wf (l : List Char) :
    (∀ t ∈ runs l, HRun t) ∧
      List.Chain' (fun a b => headW a ≠ headW b) (runs l) := by
  induction l with
  | nil => exact ⟨fun t ht => absurd ht (by simp [runs]), by simp [runs]⟩
  | cons c cs ih => exact consRun_wf c (runs cs) ih.1 ih.2

theorem runs_hrun (l : List Char) : ∀ t ∈ runs l, HRun t := (runs_wf l).1

theorem runs_chain (l : List Char) :
    List.Chain' (fun a b => headW a ≠ headW b) (runs l) := (runs_wf l).2

theorem infix_of_wboccurs (w x : List Char) (h : WBOccurs w x) : w <:+: x := by
  obtain ⟨u, v, hx, _, _⟩ := h
  exact ⟨u, v, hx.symm⟩

theorem wboccurs_hrun (t w : List Char) (hh : HRun t) (hw : w ≠ [])
    (hword : ∀ c ∈ w, isWordChar c = true) (ho : WBOccurs w t) : t = w := by
  obtain ⟨u, v, ht, hu, hv⟩ := ho
  obtain ⟨hne, hhom⟩ := hh
  have hwt : headW t = true := by
    cases w with
    | nil => exact absurd rfl hw
    | cons wc ws =>
        have hmem : wc ∈ t := by
          rw [ht]
          exact List.mem_append_left v (List.mem_append_right u (List.mem_cons_self wc ws))
        rw [← hhom wc hmem]
        exact hword wc (List.mem_cons_self wc ws)
  have hu0 : u = [] := by
    rcases List.eq_nil_or_concat u with rfl | ⟨us, a, hua⟩
    · rfl
    · exfalso
      rw [List.concat_eq_append] at hua
      subst hua
      have hga : (us ++ [a]).getLast? = some a := by
        rw [List.getLast?_append]; rfl
      rw [hga] at hu
      have hfa : isWordChar a = false := hu
      have hamem : a ∈ t := by
        rw [ht]
        exact List.mem_append_left v (List.mem_append_left w
          (List.mem_append_right us (List.mem_singleton.mpr rfl)))
      rw [hhom a hamem, hwt] at hfa
      exact absurd hfa (by decide)
  have hv0 : v = [] := by
    cases v with
    | nil => rfl
    | cons vc vs =>
        exfalso
        have hfa : isWordChar vc = false := hv
        have hvmem : vc ∈ t := by
          rw [ht]
          exact List.mem_append_right (u ++ w) (List.mem_cons_self vc vs)
        rw [hhom vc hvmem, hwt] at hfa
        exact absurd hfa (by decide)
  rw [ht, hu0, hv0]
  simp

theorem wboccurs_of_mem_runs (l w : List Char) (hw : headW w = true) (h : w ∈ runs l) :
    WBOccurs w l := by
  obtain ⟨P, S, hPS⟩ := List.append_of_mem h
  have hflat : l = P.flatten ++ w ++ S.flatten := by
    conv_lhs => rw [← runs_flatten l, hPS]
    simp [List.flatten_append]
  have hch := runs_chain l
  rw [hPS, List.chain'_append] at hch
  obtain ⟨hchP, hchWS, hlink⟩ := hch
  refine ⟨P.flatten, S.flatten, hflat, ?_, ?_⟩
  · rcases List.eq_nil_or_concat P with rfl | ⟨P2, plast, hP2⟩
    · simp [nonWordB]
    · rw [List.concat_eq_append] at hP2
      subst hP2
      have hplast_mem : plast ∈ runs l := by
        rw [hPS]
        exact List.mem_append_left _
          (List.mem_append_right _ (List.mem_singleton.mpr rfl))
      obtain ⟨hpne, hphom⟩ := runs_hrun l plast hplast_mem
      have hglP : (P2 ++ [plast]).getLast? = some plast := by
        rw [List.getLast?_append]; rfl
      have hrel : headW plast ≠ headW w := by
        apply hlink plast ?_ w ?_
        · rw [hglP]; rfl
        · rfl
      have hplastW : headW plast = false := by
        cases hpw : headW plast with
        | false => rfl
        | true => exact absurd (by rw [hpw, hw]) hrel
      rcases List.eq_nil_or_concat plast with rfl | ⟨pl2, lc, hpl2⟩
      · exact absurd rfl hpne
      · rw [List.concat_eq_append] at hpl2
        subst hpl2
        have hgl : ((P2 ++ [pl2 ++ [lc]]).flatten).getLast? = some lc := by
          rw [List.flatten_append]
          have h1 : ([pl2 ++ [lc]] : List (List Char)).flatten = pl2 ++ [lc] := by simp
          rw [List.getLast?_append, h1, List.getLast?_append]
          rfl
        rw [hgl]
        show isWordChar lc = false
        have hlc_mem : lc ∈ pl2 ++ [lc] :=
          List.mem_append_right _ (List.mem_singleton.mpr rfl)
        rw [hphom lc hlc_mem, hplastW]
  · cases S with
    | nil => simp [nonWordB]
    | cons s S2 =>
        have hs_mem : s ∈ runs l := by
          rw [hPS]
          exact List.mem_append_right _ (List.mem_cons_of_mem _ (List.mem_cons_self s S2))
        obtain ⟨hsne, hshom⟩ := runs_hrun l s hs_mem
        have hws : headW w ≠ headW s := (List.chain'_cons.mp hchWS).1
        have hsW : headW s = false := by
          cases hsw : headW s with
          | false => rfl
          | true => exact absurd (by rw [hw, hsw]) hws
        cases s with
        | nil => exact absurd rfl hsne
        | cons sc ss =>
            have hhd : ((sc :: ss) :: S2).flatten.head? = some sc := rfl
            rw [hhd]
            show isWordChar sc = false
            exact hsW

theorem loc_word_occurrence (p : List Char) (hp : p ≠ [])
    (hpw : ∀ c ∈ p, isWordChar c = true) :
    ∀ (cs : List (List Char)), (∀ c ∈ cs, c ≠ []) →
      List.Chain' (fun a b => AllNW a ∨ AllNW b) cs →
      ∀ u v, cs.flatten = u ++ p ++ v →
      ∃ c ∈ cs, ∃ u2 v2, c = u2 ++ p ++ v2 ∧
        (u2.getLast? = none ∨ u2.getLast? = u.getLast?) ∧
        (v2.head? = none ∨ v2.head? = v.head?) := by
  intro cs
  induction cs with
  | nil =>
      intro _ _ u v h
      exfalso
      have h2 : u ++ p ++ v = [] := by rw [← h]; rfl
      rw [List.append_eq_nil] at h2
      rw [List.append_eq_nil] at h2
      exact hp h2.1.2
  | cons c cs' ih =>
      intro hne hch u v h
      rw [List.flatten_cons, List.append_assoc] at h
      have hne' : ∀ d ∈ cs', d ≠ [] := fun d hd => hne d (List.mem_cons_of_mem c hd)
      have hch' : List.Chain' (fun a b => AllNW a ∨ AllNW b) cs' :=
        (List.chain'_cons'.mp hch).2
      rcases List.append_eq_append_iff.mp h with ⟨a2, hu2, hrest⟩ | ⟨c2, hc2, hrest⟩
      · -- the occurrence lies beyond the first chunk
        rw [← List.append_assoc] at hrest
        obtain ⟨d, hd, u2, v2, hdec, hub, hvb⟩ := ih hne' hch' a2 v hrest
        refine ⟨d, List.mem_cons_of_mem c hd, u2, v2, hdec, ?_, hvb⟩
        rcases hub with hn | heq
        · exact Or.inl hn
        · cases ha2 : a2.getLast? with
          | none => exact Or.inl (by rw [heq, ha2])
          | some lc =>
              refine Or.inr ?_
              rw [hu2, List.getLast?_append, ha2]
              exact heq.trans ha2
      · rcases List.append_eq_append_iff.mp hrest with ⟨a3, hc2a, hva⟩ | ⟨b3, hpb, hflatb⟩
        · -- the occurrence lies inside the first chunk
          refine ⟨c, List.mem_cons_self c cs', u, a3, ?_, Or.inr rfl, ?_⟩
          · rw [hc2, hc2a, List.append_assoc]
          · cases a3 with
            | nil => exact Or.inl rfl
            | cons x xs => exact Or.inr (by rw [hva]; rfl)
        · cases c2 with
          | nil =>
              -- the occurrence starts exactly at the chunk boundary
              rw [List.nil_append] at hpb
              obtain ⟨d, hd, u2, v2, hdec, hub, hvb⟩ :=
                ih hne' hch' [] v (by rw [hflatb, ← hpb]; rfl)
              refine ⟨d, List.mem_cons_of_mem c hd, u2, v2, hdec, ?_, hvb⟩
              rcases hub with hn | hn
              · exact Or.inl hn
              · exact Or.inl hn
          | cons c2h c2t =>
              cases b3 with
              | nil =>
                  -- the occurrence ends exactly at the chunk boundary
                  rw [List.append_nil] at hpb
                  refine ⟨c, List.mem_cons_self c cs', u, [], ?_, Or.inr rfl, Or.inl rfl⟩
                  rw [hc2, ← hpb, List.append_nil]
              | cons b3h b3t =>
                  -- a proper straddle: both junction characters are word
                  -- characters, contradicting the separation invariant
                  exfalso
                  have hb3sub : b3h ∈ p := by
                    rw [hpb]
                    exact List.mem_append_right _ (List.mem_cons_self _ _)
                  cases cs' with
                  | nil => exact absurd hflatb.symm (by simp)
                  | cons d cs'' =>
                      have hrel : AllNW c ∨ AllNW d := (List.chain'_cons'.mp hch).1 d rfl
                      rcases hrel with hAc | hAd
                      · have hcmem : c2h ∈ c := by
                          rw [hc2]
                          exact List.mem_append_right u (List.mem_cons_self _ _)
                        have hW : isWordChar c2h = true := by
                          apply hpw
                          rw [hpb]
                          exact List.mem_append_left _ (List.mem_cons_self _ _)
                        rw [hAc c2h hcmem] at hW
                        exact absurd hW (by decide)
                      · have hdne := hne d (List.mem_cons_of_mem c (List.mem_cons_self d cs''))
                        cases d with
                        | nil => exact absurd rfl hdne
                        | cons dh dt =>
                            have hheads := congrArg List.head? hflatb
                            have hdh : dh = b3h := by
                              simpa using hheads
                            have hW : isWordChar b3h = true := hpw b3h hb3sub
                            have hF := hAd dh (List.mem_cons_self dh dt)
                            rw [hdh] at hF
                            rw [hF] at hW
                            exact absurd hW (by decide)

theorem wboccurs_flatten_chunks (p : List Char) (hp : p ≠ [])
    (hpw : ∀ c ∈ p, isWordChar c = true) (cs : List (List Char))
    (h1 : ∀ c ∈ cs, c ≠ []) (h2 : List.Chain' (fun a b => AllNW a ∨ AllNW b) cs)
    (h : WBOccurs p cs.flatten) : ∃ c ∈ cs, WBOccurs p c := by
  obtain ⟨u, v, hx, hu, hv⟩ := h
  obtain ⟨c, hc, u2, v2, hdec, hub, hvb⟩ := loc_word_occurrence p hp hpw cs h1 h2 u v hx
  refine ⟨c, hc, u2, v2, hdec, ?_, ?_⟩
  · rcases hub with hn | hn
    · rw [hn]; trivial
    · rw [hn]; exact hu
  · rcases hvb with hn | hn
    · rw [hn]; trivial
    · rw [hn]; exact hv

theorem infix_flatten_chunks (p : List Char) (hp : p ≠ [])
    (hpw : ∀ c ∈ p, isWordChar c = true) (cs : List (List Char))
    (h1 : ∀ c ∈ cs, c ≠ []) (h2 : List.Chain' (fun a b => AllNW a ∨ AllNW b) cs)
    (h : p <:+: cs.flatten) : ∃ c ∈ cs, p <:+: c := by
  obtain ⟨u, v, hx⟩ := h
  obtain ⟨c, hc, u2, v2, hdec, _, _⟩ := loc_word_occurrence p hp hpw cs h1 h2 u v hx.symm
  exact ⟨c, hc, u2, v2, hdec.symm⟩

theorem chain'_imp_mem {R S : List Char → List Char → Prop} :
    ∀ (l : List (List Char)), (∀ a ∈ l, ∀ b ∈ l, R a b → S a b) →
      List.Chain' R l → List.Chain' S l := by
  intro l
  induction l with
  | nil => intro _ _; exact List.chain'_nil
  | cons a l ih =>
      intro h hch
      rw [List.chain'_cons'] at hch ⊢
      refine ⟨fun y hy => ?_, ?_⟩
      · have hyl : y ∈ l := by
          cases l with
          | nil => cases hy
          | cons b l2 =>
              simp only [List.head?_cons, Option.mem_def, Option.some.injEq] at hy
              rw [← hy]
              exact List.mem_cons_self b l2
        exact h a (List.mem_cons_self a l) y (List.mem_cons_of_mem a hyl) (hch.1 y hy)
      · exact ih (fun x hx z hz => h x (List.mem_cons_of_mem a hx) z (List.mem_cons_of_mem a hz))
          hch.2

theorem replRun_ne_nil (w r t : List Char) (hr : r ≠ []) (ht : t ≠ []) :
    replRun w r t ≠ [] := by
  unfold replRun
  by_cases h : t = w
  · rw [if_pos h]; exact hr
  · rw [if_neg h]; exact ht

theorem chunks_invariant (w r : List Char) (hw : w ≠ [])
    (hword : ∀ c ∈ w, isWordChar c = true) (hr : r ≠ []) (x : List Char) :
    (∀ c ∈ (runs x).map (replRun w r), c ≠ []) ∧
      List.Chain' (fun a b => AllNW a ∨ AllNW b) ((runs x).map (replRun w r)) := by
  have hww : headW w = true := headW_of_word w hw hword
  constructor
  · intro c hc
    obtain ⟨t, ht, rfl⟩ := List.mem_map.mp hc
    exact replRun_ne_nil w r t hr (runs_hrun x t ht).1
  · rw [List.chain'_map]
    apply chain'_imp_mem (runs x) ?_ (runs_chain x)
    intro a ha b hb hab
    by_cases hwa : headW a = true
    · have hwb : headW b = false := by
        cases hb2 : headW b with
        | false => rfl
        | true => exact absurd (by rw [hwa, hb2]) hab
      have hbne : b ≠ w := by
        intro hbw
        rw [hbw, hww] at hwb
        exact absurd hwb (by decide)
      refine Or.inr ?_
      rw [replRun, if_neg hbne]
      exact hrun_allnw b (runs_hrun x b hb) hwb
    · have hwa2 : headW a = false := by
        cases ha2 : headW a with
        | false => rfl
        | true => exact absurd ha2 hwa
      have hane : a ≠ w := by
        intro haw
        rw [haw, hww] at hwa2
        exact absurd hwa2 (by decide)
      refine Or.inl ?_
      rw [replRun, if_neg hane]
      exact hrun_allnw a (runs_hrun x a ha) hwa2

theorem infix_of_mem_runs (x t : List Char) (h : t ∈ runs x) : t <:+: x := by
  have h2 := List.infix_of_mem_flatten h
  rwa [runs_flatten] at h2

theorem replace_no_op (w r x : List Char) (h : ∀ t ∈ runs x, t ≠ w) :
    replaceWordAll w r x = x := by
  unfold replaceWordAll
  have hmap : (runs x).map (replRun w r) = runs x := by
    conv_rhs => rw [← List.map_id (runs x)]
    apply List.map_congr_left
    intro t ht
    rw [replRun, if_neg (h t ht)]
    rfl
  rw [hmap, runs_flatten]

theorem wboccurs_replace (w r w2 x : List Char) (hw : w ≠ [])
    (hword : ∀ c ∈ w, isWordChar c = true) (hr : r ≠ [])
    (hw2 : w2 ≠ []) (hword2 : ∀ c ∈ w2, isWordChar c = true)
    (h : WBOccurs w2 (replaceWordAll w r x)) :
    (w2 ∈ runs x ∧ w2 ≠ w) ∨ WBOccurs w2 r := by
  obtain ⟨inv1, inv2⟩ := chunks_invariant w r hw hword hr x
  obtain ⟨c, hc, hocc⟩ := wboccurs_flatten_chunks w2 hw2 hword2 _ inv1 inv2 h
  obtain ⟨t, ht, rfl⟩ := List.mem_map.mp hc
  by_cases hteq : t = w
  · rw [replRun, if_pos hteq] at hocc
    exact Or.inr hocc
  · rw [replRun, if_neg hteq] at hocc
    have heq := wboccurs_hrun t w2 (runs_hrun x t ht) hw2 hword2 hocc
    subst heq
    exact Or.inl ⟨ht, hteq⟩

theorem allnw_map (g : Char → Char) (hg : ∀ c, isWordChar (g c) = isWordChar c)
    (t : List Char) (h : AllNW t) : AllNW (t.map g) := by
  intro c hc
  obtain ⟨d, hd, rfl⟩ := List.mem_map.mp hc
  rw [hg d]
  exact h d hd

theorem infix_map_replace (g : Char → Char) (hg : ∀ c, isWordChar (g c) = isWordChar c)
    (w r p x : List Char) (hw : w ≠ []) (hword : ∀ c ∈ w, isWordChar c = true)
    (hr : r ≠ []) (hp : p ≠ []) (hpw : ∀ c ∈ p, isWordChar c = true)
    (h : p <:+: (replaceWordAll w r x).map g) :
    p <:+: x.map g ∨ p <:+: r.map g := by
  rw [replaceWordAll, List.map_flatten] at h
  obtain ⟨inv1, inv2⟩ := chunks_invariant w r hw hword hr x
  have inv1' : ∀ c ∈ ((runs x).map (replRun w r)).map (List.map g), c ≠ [] := by
    intro c hc
    obtain ⟨t, ht, rfl⟩ := List.mem_map.mp hc
    intro hnil
    exact inv1 t ht (List.map_eq_nil_iff.mp hnil)
  have inv2' : List.Chain' (fun a b => AllNW a ∨ AllNW b)
      (((runs x).map (replRun w r)).map (List.map g)) := by
    rw [List.chain'_map]
    apply List.Chain'.imp ?_ inv2
    intro a b hab
    rcases hab with ha | hb
    · exact Or.inl (allnw_map g hg a ha)
    · exact Or.inr (allnw_map g hg b hb)
  obtain ⟨c, hc, hinf⟩ := infix_flatten_chunks p hp hpw _ inv1' inv2' h
  obtain ⟨t0, ht0, rfl⟩ := List.mem_map.mp hc
  obtain ⟨t, ht, rfl⟩ := List.mem_map.mp ht0
  by_cases hteq : t = w
  · rw [replRun, if_pos hteq] at hinf
    exact Or.inr hinf
  · rw [replRun, if_neg hteq] at hinf
    exact Or.inl (hinf.trans (List.IsInfix.map g (infix_of_mem_runs x t ht)))

theorem isWordChar_asciiLower (c : Char) : isWordChar (asciiLower c) = isWordChar c := by
  unfold asciiLower
  cases hf : lowerPairs.find? (fun p => p.1 == c) with
  | none => rfl
  | some pr =>
      have hmem := List.mem_of_find?_eq_some hf
      have hbeq := List.find?_some hf
      have hc : pr.1 = c := by simpa using hbeq
      have htable : ∀ p ∈ lowerPairs, isWordChar p.1 = true ∧ isWordChar p.2 = true := by
        decide
      obtain ⟨h1, h2⟩ := htable pr hmem
      rw [h2, ← hc, h1]

theorem normalizeAttributeType_else (z : String)
    (hEH : ¬ (eventHandlerLower <:+: z.toList.map asciiLower))
    (hRN : z ≠ "ReactNode") :
    normalizeAttributeType z = String.mk (replaceWordAll booChars booReplChars
      (replaceWordAll cssChars strReplChars z.toList)) := by
  simp only [normalizeAttributeType]
  rw [if_neg hEH, if_neg hRN]

/-- C9: the attribute-type normalization is idempotent — applying
`normalizeAttributeType` twice yields the same result as applying it once. -/
theorem c9_normalize_idempotent (s : String) :
    normalizeAttributeType (normalizeAttributeType s) = normalizeAttributeType s := by
  by_cases h1 : eventHandlerLower <:+: s.toList.map asciiLower
  · have hNs : normalizeAttributeType s = "string" := by
      simp only [normalizeAttributeType]
      rw [if_pos h1]
    rw [hNs]
    decide
  · by_cases h2 : s = "ReactNode"
    · subst h2
      decide
    · have hNs := normalizeAttributeType_else s h1 h2
      rw [hNs]
      set cs0 := replaceWordAll cssChars strReplChars s.toList with hcs0
      set y := replaceWordAll booChars booReplChars cs0 with hyy
      have hylist : (String.mk y).toList = y := rfl
      have hEH : ¬ (eventHandlerLower <:+: (String.mk y).toList.map asciiLower) := by
        rw [hylist]
        intro hinf
        rw [hyy] at hinf
        rcases infix_map_replace asciiLower isWordChar_asciiLower booChars booReplChars
            eventHandlerLower cs0 (by decide) (by decide) (by decide) (by decide) (by decide)
            hinf with hA | hB
        · rw [hcs0] at hA
          rcases infix_map_replace asciiLower isWordChar_asciiLower cssChars strReplChars
              eventHandlerLower s.toList (by decide) (by decide) (by decide) (by decide)
              (by decide) hA with hC | hD
          · exact h1 hC
          · exact absurd hD (by decide)
        · exact absurd hB (by decide)
      have hRN : (String.mk y) ≠ "ReactNode" := by
        intro heq
        have hyl : y = "ReactNode".toList := by
          rw [← hylist, heq]
        by_cases hb : ∀ t ∈ runs cs0, t ≠ booChars
        · have hyc : y = cs0 := by rw [hyy]; exact replace_no_op _ _ _ hb
          by_cases hcp : ∀ t ∈ runs s.toList, t ≠ cssChars
          · have hcs : cs0 = s.toList := by rw [hcs0]; exact replace_no_op _ _ _ hcp
            apply h2
            apply String.ext
            show s.toList = "ReactNode".data
            rw [← hcs, ← hyc, hyl]
            rfl
          · push_neg at hcp
            obtain ⟨t, ht, hteq⟩ := hcp
            have hmem : strReplChars ∈ (runs s.toList).map (replRun cssChars strReplChars) :=
              List.mem_map.mpr ⟨t, ht, by rw [replRun, if_pos hteq]⟩
            have hinf : strReplChars <:+: cs0 := by
              rw [hcs0]
              exact List.infix_of_mem_flatten hmem
            rw [← hyc, hyl] at hinf
            exact absurd hinf (by decide)
        · push_neg at hb
          obtain ⟨t, ht, hteq⟩ := hb
          have hmem : booReplChars ∈ (runs cs0).map (replRun booChars booReplChars) :=
            List.mem_map.mpr ⟨t, ht, by rw [replRun, if_pos hteq]⟩
          have hinf : booReplChars <:+: y := by
            rw [hyy]
            exact List.infix_of_mem_flatten hmem
          rw [hyl] at hinf
          exact absurd hinf (by decide)
      have hCy : replaceWordAll cssChars strReplChars y = y := by
        apply replace_no_op
        intro t ht hteq
        subst hteq
        have hocc : WBOccurs cssChars y := wboccurs_of_mem_runs y cssChars (by decide) ht
        rw [hyy] at hocc
        rcases wboccurs_replace booChars booReplChars cssChars cs0 (by decide) (by decide)
            (by decide) (by decide) (by decide) hocc with ⟨hmem, _⟩ | hocc2
        · have hocc3 : WBOccurs cssChars cs0 :=
            wboccurs_of_mem_runs cs0 cssChars (by decide) hmem
          rw [hcs0] at hocc3
          rcases wboccurs_replace cssChars strReplChars cssChars s.toList (by decide)
              (by decide) (by decide) (by decide) (by decide) hocc3 with ⟨_, habs⟩ | hocc4
          · exact habs rfl
          · exact absurd (infix_of_wboccurs _ _ hocc4) (by decide)
        · exact absurd (infix_of_wboccurs _ _ hocc2) (by decide)
      have hBy : replaceWordAll booChars booReplChars y = y := by
        apply replace_no_op
        intro t ht hteq
        subst hteq
        have hocc : WBOccurs booChars y := wboccurs_of_mem_runs y booChars (by decide) ht
        rw [hyy] at hocc
        rcases wboccurs_replace booChars booReplChars booChars cs0 (by decide) (by decide)
            (by decide) (by decide) (by decide) hocc with ⟨_, habs⟩ | hocc2
        · exact habs rfl
        · exact absurd (infix_of_wboccurs _ _ hocc2) (by decide)
      rw [normalizeAttributeType_else (String.mk y) hEH hRN]
      show String.mk (replaceWordAll booChars booReplChars
        (replaceWordAll cssChars strReplChars y)) = String.mk y
      rw [hCy, hBy]
